import Mathlib

/-!
Verification of the client-authorization registry in `src/main/client.c`
(FreeRADIUS): a shallow embedding of the prefix-indexed client registry —
address keys, the two comparators, `client_add`, `client_find`,
`client_delete`, `client_findbynumber`, and the sanity-check suffix of
`client_afrom_request` — together with proofs of the registry's stated
properties.

Library helpers that `client.c` calls but that live outside this file
(`fr_ipaddr_cmp`, `fr_ipaddr_mask`, `fr_ipaddr_is_inaddr_any`, and the
`rbtree` container) are modelled from the specification, as marked on each
definition.  The C field `prefix` is rendered `pfx` (and `min_prefix` as
`min_pfx`) because `prefix` is a Lean keyword.
-/

/-- Address family of an IP address (AF_INET or AF_INET6). -/
inductive AF where
  | inet
  | inet6
deriving DecidableEq

/-- Bit width of an address family: 32 for IPv4, 128 for IPv6. -/
def AF.bits : AF → Nat
  | .inet => 32
  | .inet6 => 128

/-- Numeric value of the address-family constant (AF_INET = 2, AF_INET6 = 10). -/
def AF.code : AF → Nat
  | .inet => 2
  | .inet6 => 10

/-- Shallow embedding of `fr_ipaddr_t`: family, address value (a natural number
below `2 ^ af.bits`), and prefix length. -/
structure fr_ipaddr_t where
  af : AF
  addr : Nat
  pfx : Nat
deriving DecidableEq

/-- Mask of a `w`-bit value keeping only its top `p` bits (all of it when `w ≤ p`). -/
def maskBits (w p a : Nat) : Nat :=
  if w ≤ p then a else a / 2 ^ (w - p) * 2 ^ (w - p)

/-- Modelled from the spec: `fr_ipaddr_mask` (library code not in this file) masks
the address down to `p` bits and records `p` as the prefix length. -/
def fr_ipaddr_mask (ip : fr_ipaddr_t) (p : Nat) : fr_ipaddr_t :=
  { ip with addr := maskBits ip.af.bits p ip.addr, pfx := p }

/-- Modelled from the spec: `fr_ipaddr_is_inaddr_any` (library code not in this
file) tests whether the address bytes are all zero. -/
def fr_ipaddr_is_inaddr_any (ip : fr_ipaddr_t) : Bool :=
  ip.addr == 0

/-- Modelled from the spec: `fr_ipaddr_cmp` (library code not in this file)
orders keys by (family, masked address, prefix length); it returns zero exactly
when all three agree. -/
def fr_ipaddr_cmp (a b : fr_ipaddr_t) : Int :=
  if a.af = b.af then
    if maskBits a.af.bits a.pfx a.addr = maskBits b.af.bits b.pfx b.addr then
      (a.pfx : Int) - (b.pfx : Int)
    else (maskBits a.af.bits a.pfx a.addr : Int) - (maskBits b.af.bits b.pfx b.addr : Int)
  else (a.af.code : Int) - (b.af.code : Int)

/-- Transport-protocol constant IPPROTO_IP (0), used as the transport wildcard. -/
def IPPROTO_IP : Nat := 0

/-- Transport-protocol constant IPPROTO_UDP (17). -/
def IPPROTO_UDP : Nat := 17

/-- Transport-protocol constant IPPROTO_TCP (6). -/
def IPPROTO_TCP : Nat := 6

/-- Shallow embedding of `RADCLIENT`: the fields `client.c` reads.  String-typed
fields are `Option String` (NULL versus a C string). -/
structure RADCLIENT where
  ipaddr : fr_ipaddr_t
  proto : Nat
  number : Nat
  longname : Option String
  secret : Option String
  shortname : Option String
  nas_type : Option String
  server : Option String
  message_authenticator : Bool
deriving DecidableEq

/-- Default-initialised client used to build probe keys (the stack `RADCLIENT
myclient` in C, of which the comparators only read the fields the caller sets). -/
def emptyClient : RADCLIENT :=
  { ipaddr := { af := .inet, addr := 0, pfx := 0 }, proto := 0, number := 0,
    longname := none, secret := none, shortname := none, nas_type := none,
    server := none, message_authenticator := false }

/-- client_ipaddr_cmp from client.c (WITH_TCP build): compare by address first;
IPPROTO_IP on either side is a transport wildcard, otherwise compare transports. -/
def client_ipaddr_cmp (a b : RADCLIENT) : Int :=
  let rcode := fr_ipaddr_cmp a.ipaddr b.ipaddr
  if rcode ≠ 0 then rcode
  else if a.proto = IPPROTO_IP ∨ b.proto = IPPROTO_IP then 0
  else (a.proto : Int) - (b.proto : Int)

/-- client_num_cmp from client.c (WITH_STATS): compare clients by assigned number. -/
def client_num_cmp (a b : RADCLIENT) : Int :=
  (a.number : Int) - (b.number : Int)

/-- Modelled from the spec: an `rbtree` bucket is an ordered set of clients; we
model it as the list of its members, `rbtree_finddata` returning the member the
comparator calls equal to the probe key. -/
def rbtree_finddata (cmp : RADCLIENT → RADCLIENT → Int) (t : List RADCLIENT)
    (q : RADCLIENT) : Option RADCLIENT :=
  t.find? (fun x => cmp q x == 0)

/-- Modelled from the spec: `rbtree_deletebydata` removes the member the
comparator calls equal to the given record; it is a no-op when there is none or
when the tree was never created. -/
def rbtree_deletebydata (cmp : RADCLIENT → RADCLIENT → Int)
    (t : Option (List RADCLIENT)) (q : RADCLIENT) : Option (List RADCLIENT) :=
  t.map (List.eraseP (fun x => cmp q x == 0))

/-- struct radclient_list from client.c: one (possibly absent) tree per prefix
length 0..128 plus the minimum-populated-prefix-length watermark. -/
structure RADCLIENT_LIST where
  name : String
  trees : Nat → Option (List RADCLIENT)
  min_pfx : Nat

/-- client_list_init from client.c: a fresh list with no trees and watermark 128. -/
def client_list_init (name : String) : RADCLIENT_LIST :=
  { name := name, trees := fun _ => none, min_pfx := 128 }

/-- Global numbering state (WITH_STATS): the statics `tree_num` and
`tree_num_max` in client.c. -/
structure NumState where
  tree_num : Option (List RADCLIENT)
  tree_num_max : Nat
deriving DecidableEq

/-- Initial value of the static numbering state. -/
def initNumState : NumState := { tree_num := none, tree_num_max := 0 }

/-- Wildcard fixup at the top of client_add: an all-zeros address carrying a
full-width netmask is rewritten to prefix length 0. -/
def wildcard_fixup (c : RADCLIENT) : RADCLIENT :=
  if fr_ipaddr_is_inaddr_any c.ipaddr then
    if c.ipaddr.pfx = c.ipaddr.af.bits then
      { c with ipaddr := { c.ipaddr with pfx := 0 } }
    else c
  else c

/-- Field-by-field duplicate test in client_add: the namecmp macro applied to
the five string fields, plus the address and message_authenticator comparisons. -/
def client_is_dup (old c : RADCLIENT) : Bool :=
  (fr_ipaddr_cmp old.ipaddr c.ipaddr == 0) &&
  (old.ipaddr.pfx == c.ipaddr.pfx) &&
  (old.longname == c.longname) && (old.secret == c.secret) &&
  (old.shortname == c.shortname) && (old.nas_type == c.nas_type) &&
  (old.server == c.server) &&
  (old.message_authenticator == c.message_authenticator)

/-- client_add from client.c, for an explicitly supplied list (the NULL-list
branch of the C function resolves a scope first and then runs this same code).
Returns the C boolean result with the updated list and numbering state: wildcard
fixup, duplicate/conflict detection against the bucket at the record's prefix
length, insertion, number assignment, and watermark update. -/
def client_add (clients : RADCLIENT_LIST) (g : NumState) (client₀ : RADCLIENT) :
    Bool × RADCLIENT_LIST × NumState :=
  let client := wildcard_fixup client₀
  let p := client.ipaddr.pfx
  let tree := (clients.trees p).getD []
  match rbtree_finddata client_ipaddr_cmp tree client with
  | some old =>
      if client_is_dup old client then (true, clients, g) else (false, clients, g)
  | none =>
      let c := { client with number := g.tree_num_max }
      (true,
       { clients with
          trees := fun i => if i = p then some (tree ++ [c]) else clients.trees i,
          min_pfx := if p < clients.min_pfx then p else clients.min_pfx },
       { tree_num := some ((g.tree_num.getD []) ++ [c]),
         tree_num_max := g.tree_num_max + 1 })

/-- client_delete from client.c (WITH_DYNAMIC_CLIENTS, WITH_STATS): falls back
to the root list when none is given, removes the record from the global number
tree and from the bucket at the record's prefix length. -/
def client_delete (clients : Option RADCLIENT_LIST) (root : RADCLIENT_LIST)
    (g : NumState) (client : RADCLIENT) : RADCLIENT_LIST × NumState :=
  let cl := clients.getD root
  let p := client.ipaddr.pfx
  ({ cl with
      trees := fun i =>
        if i = p then rbtree_deletebydata client_ipaddr_cmp (cl.trees p) client
        else cl.trees i },
   { g with tree_num := rbtree_deletebydata client_num_cmp g.tree_num client })

/-- client_findbynumber from client.c (WITH_STATS): falls back to the root list,
returns NULL when no list exists or the number was never assigned, and otherwise
probes the global number tree with a key holding just the number. -/
def client_findbynumber (clients root : Option RADCLIENT_LIST) (g : NumState)
    (number : Nat) : Option RADCLIENT :=
  match (match clients with | none => root | some cl => some cl) with
  | none => none
  | some _ =>
      if g.tree_num_max ≤ number then none
      else
        match g.tree_num with
        | some t => rbtree_finddata client_num_cmp t { emptyClient with number := number }
        | none => none

/-- Probe key built by client_find at prefix length `i`: the query address
masked to `i` bits, paired with the requested transport. -/
def mkQuery (ipaddr : fr_ipaddr_t) (proto i : Nat) : RADCLIENT :=
  { emptyClient with ipaddr := fr_ipaddr_mask ipaddr i, proto := proto }

/-- Single iteration of the client_find loop: skip an absent tree at prefix
length `i`, otherwise search it for the masked query key. -/
def client_find_probe (clients : RADCLIENT_LIST) (ipaddr : fr_ipaddr_t)
    (proto i : Nat) : Option RADCLIENT :=
  match clients.trees i with
  | none => none
  | some t => rbtree_finddata client_ipaddr_cmp t (mkQuery ipaddr proto i)

/-- Descending scan of client_find from prefix length `n` down to the watermark. -/
def client_find_scan (clients : RADCLIENT_LIST) (ipaddr : fr_ipaddr_t)
    (proto : Nat) : Nat → Option RADCLIENT
  | 0 =>
      if 0 < clients.min_pfx then none else client_find_probe clients ipaddr proto 0
  | n + 1 =>
      if n + 1 < clients.min_pfx then none
      else
        match client_find_probe clients ipaddr proto (n + 1) with
        | some c => some c
        | none => client_find_scan clients ipaddr proto n

/-- Upper end of the client_find scan: the family's bit width, clamped to the
query's own prefix when that is shorter. -/
def effMax (ipaddr : fr_ipaddr_t) : Nat :=
  if ipaddr.pfx < ipaddr.af.bits then ipaddr.pfx else ipaddr.af.bits

/-- client_find from client.c, for an explicitly supplied list (the C function
first falls back from NULL to the root list and rejects unknown address
families, which the `AF` type excludes): scan prefix lengths from `effMax` down
to the watermark and return the first bucket hit. -/
def client_find (clients : RADCLIENT_LIST) (ipaddr : fr_ipaddr_t)
    (proto : Nat) : Option RADCLIENT :=
  client_find_scan clients ipaddr proto (effMax ipaddr)

/-- Sanity-check suffix of client_afrom_request in client.c: the three checks a
synthesized client must pass against the network that accepted the originating
request (the construction of the record itself goes through the external config
machinery).  Returns the client on success, none when it is rejected. -/
def client_afrom_request_checks (network : fr_ipaddr_t) (c : RADCLIENT) :
    Option RADCLIENT :=
  if network.af ≠ c.ipaddr.af then none
  else if c.ipaddr.pfx < network.pfx then none
  else if fr_ipaddr_cmp (fr_ipaddr_mask c.ipaddr network.pfx) network ≠ 0 then none
  else some c

/-- One runtime mutation of a registry paired with the global numbering state. -/
inductive RegOp where
  | addOp (c : RADCLIENT)
  | delOp (c : RADCLIENT)

/-- Apply one operation to a registry and the numbering state. -/
def applyOp (s : RADCLIENT_LIST × NumState) : RegOp → RADCLIENT_LIST × NumState
  | .addOp c => (client_add s.1 s.2 c).2
  | .delOp c => client_delete (some s.1) s.1 s.2 c

/-- Run a sequence of operations. -/
def runOps (s : RADCLIENT_LIST × NumState) (ops : List RegOp) :
    RADCLIENT_LIST × NumState :=
  ops.foldl applyOp s

/-- Invariant: each bucket holds clients whose prefix length names the bucket. -/
def BucketInv (l : RADCLIENT_LIST) : Prop :=
  ∀ i t, l.trees i = some t → ∀ c ∈ t, c.ipaddr.pfx = i

/-- Invariant: the watermark lies at or below every populated prefix length. -/
def WatermarkInv (l : RADCLIENT_LIST) : Prop :=
  ∀ i t, l.trees i = some t → t ≠ [] → l.min_pfx ≤ i

/-- Invariant: every client in the global number tree is numbered below the
next-number counter. -/
def NumInv (g : NumState) : Prop :=
  ∀ c ∈ g.tree_num.getD [], c.number < g.tree_num_max

/-- The query address with the given transport matches a stored entry: the query
masked to the entry's prefix length compares equal to the entry under
client_ipaddr_cmp (which treats IPPROTO_IP as a transport wildcard). -/
def MatchesEntry (ipaddr : fr_ipaddr_t) (proto : Nat) (e : RADCLIENT) : Prop :=
  client_ipaddr_cmp (mkQuery ipaddr proto e.ipaddr.pfx) e = 0

/-- Every address family has a positive bit width. -/
theorem AF.bits_pos (a : AF) : 0 < a.bits := by
  cases a <;> simp [AF.bits]

/-- Address-family constants are distinct, so the code determines the family. -/
theorem AF.code_inj {a b : AF} (h : a.code = b.code) : a = b := by
  cases a <;> cases b <;> simp_all [AF.code]

/-- Characterization of equality under the address comparator: same family, same
masked address, same prefix length. -/
theorem fr_ipaddr_cmp_eq_zero_iff {a b : fr_ipaddr_t} :
    fr_ipaddr_cmp a b = 0 ↔
      a.af = b.af ∧ maskBits a.af.bits a.pfx a.addr = maskBits b.af.bits b.pfx b.addr ∧
        a.pfx = b.pfx := by
  unfold fr_ipaddr_cmp
  split_ifs with haf hmask
  · rw [sub_eq_zero]
    exact ⟨fun h => ⟨haf, hmask, by exact_mod_cast h⟩, fun h => by exact_mod_cast h.2.2⟩
  · rw [sub_eq_zero]
    constructor
    · intro h; exact absurd (by exact_mod_cast h) hmask
    · intro h; exact absurd h.2.1 hmask
  · rw [sub_eq_zero]
    constructor
    · intro h; exact absurd (AF.code_inj (by exact_mod_cast h)) haf
    · intro h; exact absurd h.1 haf

/-- The address comparator is reflexive at zero. -/
theorem fr_ipaddr_cmp_self (a : fr_ipaddr_t) : fr_ipaddr_cmp a a = 0 :=
  fr_ipaddr_cmp_eq_zero_iff.mpr ⟨rfl, rfl, rfl⟩

/-- Characterization of equality under the client comparator: equal addresses
and compatible transports (wildcard on either side, or identical). -/
theorem client_ipaddr_cmp_eq_zero_iff {a b : RADCLIENT} :
    client_ipaddr_cmp a b = 0 ↔
      fr_ipaddr_cmp a.ipaddr b.ipaddr = 0 ∧
        (a.proto = IPPROTO_IP ∨ b.proto = IPPROTO_IP ∨ a.proto = b.proto) := by
  show (if fr_ipaddr_cmp a.ipaddr b.ipaddr ≠ 0 then fr_ipaddr_cmp a.ipaddr b.ipaddr
        else if a.proto = IPPROTO_IP ∨ b.proto = IPPROTO_IP then 0
        else (a.proto : Int) - (b.proto : Int)) = 0 ↔ _
  by_cases h : fr_ipaddr_cmp a.ipaddr b.ipaddr = 0
  · rw [if_neg (by simpa using h)]
    by_cases hp : a.proto = IPPROTO_IP ∨ b.proto = IPPROTO_IP
    · rw [if_pos hp]
      constructor
      · intro _; exact ⟨h, hp.imp id Or.inl⟩
      · intro _; rfl
    · rw [if_neg hp]
      push_neg at hp
      rw [sub_eq_zero]
      constructor
      · intro h0; exact ⟨h, Or.inr (Or.inr (by exact_mod_cast h0))⟩
      · rintro ⟨-, h0 | h0 | h0⟩
        · exact absurd h0 hp.1
        · exact absurd h0 hp.2
        · exact_mod_cast h0
  · rw [if_pos (by simpa using h)]
    constructor
    · intro h0; exact absurd h0 h
    · intro h0; exact absurd h0.1 h
/-- Sufficient condition for client-comparator equality. -/
theorem client_ipaddr_cmp_zero_of {a b : RADCLIENT}
    (hip : fr_ipaddr_cmp a.ipaddr b.ipaddr = 0)
    (hp : a.proto = IPPROTO_IP ∨ b.proto = IPPROTO_IP ∨ a.proto = b.proto) :
    client_ipaddr_cmp a b = 0 :=
  client_ipaddr_cmp_eq_zero_iff.mpr ⟨hip, hp⟩

/-- A probe at a bucket that contains a matching entry succeeds; the hit lies in
that bucket, itself matches, and carries the bucket's prefix length. -/
theorem client_find_probe_some_of_mem {l : RADCLIENT_LIST} {q : fr_ipaddr_t}
    {proto i : Nat} {t : List RADCLIENT} {e : RADCLIENT}
    (hb : BucketInv l) (ht : l.trees i = some t) (he : e ∈ t)
    (hm : MatchesEntry q proto e) :
    ∃ c, client_find_probe l q proto i = some c ∧ c ∈ t ∧ MatchesEntry q proto c := by
  have hpfx : e.ipaddr.pfx = i := hb i t ht e he
  have hpe : (client_ipaddr_cmp (mkQuery q proto i) e == 0) = true := by
    rw [beq_iff_eq, ← hpfx]; exact hm
  rcases hf : t.find? (fun x => client_ipaddr_cmp (mkQuery q proto i) x == 0) with _ | c
  · rw [List.find?_eq_none] at hf
    exact absurd hpe (by simpa using hf e he)
  · refine ⟨c, ?_, List.mem_of_find?_eq_some hf, ?_⟩
    · simp only [client_find_probe, ht, rbtree_finddata]
      exact hf
    · have hc := List.find?_some hf
      have hcp : c.ipaddr.pfx = i := hb i t ht c (List.mem_of_find?_eq_some hf)
      rw [beq_iff_eq] at hc
      unfold MatchesEntry
      rw [hcp]
      exact hc

/-- A successful probe yields an entry of the probed bucket that the comparator
calls equal to the masked query key. -/
theorem client_find_probe_some_elim {l : RADCLIENT_LIST} {q : fr_ipaddr_t}
    {proto i : Nat} {c : RADCLIENT}
    (h : client_find_probe l q proto i = some c) :
    ∃ t, l.trees i = some t ∧ c ∈ t ∧ client_ipaddr_cmp (mkQuery q proto i) c = 0 := by
  rcases ht : l.trees i with _ | t
  · simp only [client_find_probe, ht] at h
    exact Option.noConfusion h
  · simp only [client_find_probe, ht, rbtree_finddata] at h
    refine ⟨t, rfl, List.mem_of_find?_eq_some h, ?_⟩
    have := List.find?_some h
    rwa [beq_iff_eq] at this

/-- The scan returns the hit at `j` when every strictly higher scanned bucket
misses. -/
theorem client_find_scan_eq_some_of {l : RADCLIENT_LIST} {q : fr_ipaddr_t}
    {proto n j : Nat} {c : RADCLIENT}
    (hjn : j ≤ n) (hmin : l.min_pfx ≤ j)
    (hp : client_find_probe l q proto j = some c)
    (hnone : ∀ k, j < k → k ≤ n → client_find_probe l q proto k = none) :
    client_find_scan l q proto n = some c := by
  induction n with
  | zero =>
      have hj : j = 0 := Nat.le_zero.mp hjn
      subst hj
      simp only [client_find_scan, if_neg (by omega : ¬ 0 < l.min_pfx)]
      exact hp
  | succ n ih =>
      have hnlt : ¬ (n + 1 < l.min_pfx) := by omega
      rcases Nat.lt_or_ge j (n + 1) with hlt | hge
      · have h1 : client_find_probe l q proto (n + 1) = none := hnone _ hlt le_rfl
        simp only [client_find_scan, if_neg hnlt, h1]
        exact ih (by omega) fun k hk1 hk2 => hnone k hk1 (by omega)
      · have hj : j = n + 1 := by omega
        subst hj
        simp only [client_find_scan, if_neg hnlt, hp]

/-- The scan misses when every scanned bucket misses. -/
theorem client_find_scan_eq_none_of {l : RADCLIENT_LIST} {q : fr_ipaddr_t}
    {proto n : Nat}
    (h : ∀ k, k ≤ n → client_find_probe l q proto k = none) :
    client_find_scan l q proto n = none := by
  induction n with
  | zero =>
      simp only [client_find_scan]
      split
      · rfl
      · exact h 0 le_rfl
  | succ n ih =>
      simp only [client_find_scan]
      split
      · rfl
      · rw [h (n + 1) le_rfl]
        exact ih fun k hk => h k (by omega)

/-- The scan succeeds whenever some bucket between the watermark and the scan's
start would hit. -/
theorem client_find_scan_isSome_of {l : RADCLIENT_LIST} {q : fr_ipaddr_t}
    {proto n j : Nat} {c : RADCLIENT}
    (hjn : j ≤ n) (hmin : l.min_pfx ≤ j)
    (hp : client_find_probe l q proto j = some c) :
    ∃ c', client_find_scan l q proto n = some c' := by
  induction n with
  | zero =>
      have hj : j = 0 := Nat.le_zero.mp hjn
      subst hj
      exact ⟨c, by simp only [client_find_scan, if_neg (by omega : ¬ 0 < l.min_pfx)]; exact hp⟩
  | succ n ih =>
      have hnlt : ¬ (n + 1 < l.min_pfx) := by omega
      rcases hp1 : client_find_probe l q proto (n + 1) with _ | c1
      · rcases Nat.lt_or_ge j (n + 1) with hlt | hge
        · obtain ⟨c', hc'⟩ := ih (by omega)
          exact ⟨c', by simp only [client_find_scan, if_neg hnlt, hp1]; exact hc'⟩
        · have hj : j = n + 1 := by omega
          subst hj
          rw [hp] at hp1
          simp at hp1
      · exact ⟨c1, by simp only [client_find_scan, if_neg hnlt, hp1]⟩

/-- A successful scan decomposes into the first hit below the start: the hit's
bucket lies between the watermark and the start, and every bucket above it
missed. -/
theorem client_find_scan_some_elim {l : RADCLIENT_LIST} {q : fr_ipaddr_t}
    {proto n : Nat} {c : RADCLIENT}
    (h : client_find_scan l q proto n = some c) :
    ∃ j, j ≤ n ∧ l.min_pfx ≤ j ∧ client_find_probe l q proto j = some c ∧
      ∀ k, j < k → k ≤ n → client_find_probe l q proto k = none := by
  induction n with
  | zero =>
      simp only [client_find_scan] at h
      by_cases h0 : 0 < l.min_pfx
      · rw [if_pos h0] at h
        simp at h
      · rw [if_neg h0] at h
        exact ⟨0, le_rfl, by omega, h, fun k hk1 hk2 => ((by omega : False)).elim⟩
  | succ n ih =>
      simp only [client_find_scan] at h
      by_cases h0 : n + 1 < l.min_pfx
      · rw [if_pos h0] at h
        simp at h
      · rw [if_neg h0] at h
        rcases hp : client_find_probe l q proto (n + 1) with _ | c'
        · simp only [hp] at h
          obtain ⟨j, hj1, hj2, hj3, hj4⟩ := ih h
          refine ⟨j, by omega, hj2, hj3, fun k hk1 hk2 => ?_⟩
          rcases Nat.lt_or_ge k (n + 1) with h' | h'
          · exact hj4 k hk1 (by omega)
          · have hk : k = n + 1 := by omega
            subst hk
            exact hp
        · simp only [hp] at h
          obtain rfl : c' = c := by injection h
          exact ⟨n + 1, le_rfl, by omega, hp, fun k hk1 hk2 => ((by omega : False)).elim⟩

/-- When the bucket already holds a comparator-equal entry, client_add reports
the duplicate test's verdict and leaves both the registry and the numbering
state untouched. -/
theorem client_add_found {l : RADCLIENT_LIST} {g : NumState} {c old : RADCLIENT}
    (hfind : rbtree_finddata client_ipaddr_cmp
      ((l.trees (wildcard_fixup c).ipaddr.pfx).getD []) (wildcard_fixup c) = some old) :
    client_add l g c = (client_is_dup old (wildcard_fixup c), l, g) := by
  simp only [client_add, hfind]
  cases h : client_is_dup old (wildcard_fixup c) <;> simp [h]

/-- When the bucket holds no comparator-equal entry, client_add appends the
record (numbered with the current counter) to that bucket, lowers the watermark
to the record's prefix length if smaller, appends the record to the number tree
and bumps the counter. -/
theorem client_add_fresh {l : RADCLIENT_LIST} {g : NumState} {c : RADCLIENT}
    (hfresh : rbtree_finddata client_ipaddr_cmp
      ((l.trees (wildcard_fixup c).ipaddr.pfx).getD []) (wildcard_fixup c) = none) :
    client_add l g c =
      (true,
       { l with
          trees := fun i =>
            if i = (wildcard_fixup c).ipaddr.pfx then
              some (((l.trees (wildcard_fixup c).ipaddr.pfx).getD []) ++
                [{ wildcard_fixup c with number := g.tree_num_max }])
            else l.trees i,
          min_pfx :=
            if (wildcard_fixup c).ipaddr.pfx < l.min_pfx then
              (wildcard_fixup c).ipaddr.pfx
            else l.min_pfx },
       { tree_num := some ((g.tree_num.getD []) ++
           [{ wildcard_fixup c with number := g.tree_num_max }]),
         tree_num_max := g.tree_num_max + 1 }) := by
  simp only [client_add, hfresh]

/-- C1: Longest-prefix-match lookup.  For every registry satisfying the bucket
and watermark invariants, and every concrete query address with transport, if
any stored entry matches the query (the query masked to the entry's prefix
length equals the entry's key, transports compatible) within the scanned range —
from the family's bit width clamped to the query's own prefix, down to the
watermark — then client_find returns a stored matching entry whose prefix length
is greatest among all matching entries in that range; in particular a full-width
entry always outranks a /0 entry for the same address. -/
theorem C1_longest_prefix_match (l : RADCLIENT_LIST) (q : fr_ipaddr_t) (proto : Nat)
    (hb : BucketInv l) (hw : WatermarkInv l)
    (hex : ∃ i t e, i ≤ effMax q ∧ l.trees i = some t ∧ e ∈ t ∧ MatchesEntry q proto e) :
    ∃ c, client_find l q proto = some c ∧ MatchesEntry q proto c ∧
      (∃ t, l.trees c.ipaddr.pfx = some t ∧ c ∈ t) ∧
      ∀ i t e, i ≤ effMax q → l.trees i = some t → e ∈ t → MatchesEntry q proto e →
        e.ipaddr.pfx ≤ c.ipaddr.pfx := by
  obtain ⟨i, t, e, hile, ht, he, hm⟩ := hex
  obtain ⟨c0, hp0, hc0t, hc0m⟩ := client_find_probe_some_of_mem hb ht he hm
  have hmin : l.min_pfx ≤ i := hw i t ht (by rintro rfl; cases he)
  obtain ⟨cr, hcr⟩ := client_find_scan_isSome_of hile hmin hp0
  obtain ⟨j, hj1, hj2, hj3, hj4⟩ := client_find_scan_some_elim hcr
  obtain ⟨tj, htj, hctj, hcmp⟩ := client_find_probe_some_elim hj3
  have hcpfx : cr.ipaddr.pfx = j := hb j tj htj cr hctj
  refine ⟨cr, ?_, ?_, ⟨tj, by rw [hcpfx]; exact htj, hctj⟩, ?_⟩
  · simpa only [client_find] using hcr
  · unfold MatchesEntry
    rw [hcpfx]
    exact hcmp
  · intro i' t' e' hi' ht' he' hm'
    obtain ⟨c', hp', -, -⟩ := client_find_probe_some_of_mem hb ht' he' hm'
    have he'p : e'.ipaddr.pfx = i' := hb i' t' ht' e' he'
    rw [he'p, hcpfx]
    by_contra hgt
    push_neg at hgt
    have hnone := hj4 i' hgt hi'
    rw [hnone] at hp'
    exact Option.noConfusion hp'

/-- Erasing by a predicate a list that satisfies it at most once leaves no
satisfying member. -/
theorem countP_eraseP_eq_zero {α : Type} {p : α → Bool} {t : List α}
    (h : t.countP p ≤ 1) : (t.eraseP p).countP p = 0 := by
  induction t with
  | nil => simp
  | cons a l ih =>
      cases ha : p a with
      | true =>
          rw [List.eraseP_cons_of_pos ha]
          simp [List.countP_cons, ha] at h
          exact List.countP_eq_zero.mpr (by simpa using h)
      | false =>
          rw [List.eraseP_cons_of_neg (by simp [ha])]
          simp only [List.countP_cons, ha] at h ⊢
          simpa using ih (by omega)

/-- Erasing by a predicate disjoint from the searched one does not change the
search result. -/
theorem find?_eraseP_of_disjoint {α : Type} {p q : α → Bool} {t : List α}
    (h : ∀ x, q x = true → p x = false) :
    (t.eraseP q).find? p = t.find? p := by
  induction t with
  | nil => simp
  | cons a l ih =>
      cases hq : q a with
      | true =>
          rw [List.eraseP_cons_of_pos hq, List.find?_cons_of_neg _ (by simp [h a hq])]
      | false =>
          rw [List.eraseP_cons_of_neg (by simp [hq])]
          cases hp : p a with
          | true => rw [List.find?_cons_of_pos _ hp, List.find?_cons_of_pos _ hp]
          | false =>
              rw [List.find?_cons_of_neg _ (by simp [hp]),
                  List.find?_cons_of_neg _ (by simp [hp])]
              exact ih

/-- Re-numbering a record does not change how the duplicate test compares it to
the original. -/
theorem client_is_dup_number (a : RADCLIENT) (n : Nat) :
    client_is_dup { a with number := n } a = true := by
  simp [client_is_dup, fr_ipaddr_cmp_self]

/-- C2: Conflict detection with atomicity.  Inserting a record whose address key
equals a stored record's (the bucket search finds a conflicting entry) while the
field-by-field duplicate test fails is rejected: client_add returns false, the
registry and numbering state are exactly as before, and every address lookup and
number lookup returns what it returned before the attempt. -/
theorem C2_conflict_detection (l : RADCLIENT_LIST) (g : NumState) (c old : RADCLIENT)
    (hfind : rbtree_finddata client_ipaddr_cmp
      ((l.trees (wildcard_fixup c).ipaddr.pfx).getD []) (wildcard_fixup c) = some old)
    (hdiff : client_is_dup old (wildcard_fixup c) = false) :
    client_add l g c = (false, l, g) ∧
    (∀ q proto, client_find (client_add l g c).2.1 q proto = client_find l q proto) ∧
    (∀ n, client_findbynumber (some (client_add l g c).2.1) none (client_add l g c).2.2 n =
      client_findbynumber (some l) none g n) := by
  have h := client_add_found (g := g) hfind
  rw [hdiff] at h
  exact ⟨h, fun q proto => by rw [h], fun n => by rw [h]⟩

/-- C3: Idempotent re-insertion.  Starting from a registry whose bucket holds no
comparator-equal entry, the first insert succeeds, and inserting the very same
record again succeeds while changing nothing: the new copy is discarded and the
bucket contains exactly one entry equal to that key. -/
theorem C3_idempotent_reinsertion (l : RADCLIENT_LIST) (g : NumState) (c : RADCLIENT)
    (hfresh : rbtree_finddata client_ipaddr_cmp
      ((l.trees (wildcard_fixup c).ipaddr.pfx).getD []) (wildcard_fixup c) = none) :
    (client_add l g c).1 = true ∧
    client_add (client_add l g c).2.1 (client_add l g c).2.2 c =
      (true, (client_add l g c).2) ∧
    (((client_add l g c).2.1.trees (wildcard_fixup c).ipaddr.pfx).getD []).countP
      (fun x => client_ipaddr_cmp (wildcard_fixup c) x == 0) = 1 := by
  have hadd := client_add_fresh (g := g) hfresh
  have hbucket : ((client_add l g c).2.1.trees (wildcard_fixup c).ipaddr.pfx).getD [] =
      ((l.trees (wildcard_fixup c).ipaddr.pfx).getD []) ++
        [{ wildcard_fixup c with number := g.tree_num_max }] := by
    rw [hadd]
    simp
  have hcmpnew : client_ipaddr_cmp (wildcard_fixup c)
      { wildcard_fixup c with number := g.tree_num_max } = 0 := by
    apply client_ipaddr_cmp_zero_of
    · exact fr_ipaddr_cmp_self _
    · exact Or.inr (Or.inr rfl)
  have hcount0 : ((l.trees (wildcard_fixup c).ipaddr.pfx).getD []).countP
      (fun x => client_ipaddr_cmp (wildcard_fixup c) x == 0) = 0 := by
    rw [List.countP_eq_zero]
    intro x hx
    have := List.find?_eq_none.mp hfresh x hx
    simpa using this
  have hfind2 : rbtree_finddata client_ipaddr_cmp
      (((client_add l g c).2.1.trees (wildcard_fixup c).ipaddr.pfx).getD [])
      (wildcard_fixup c) =
      some { wildcard_fixup c with number := g.tree_num_max } := by
    rw [hbucket]
    unfold rbtree_finddata at hfresh ⊢
    rw [List.find?_append, hfresh]
    simp [hcmpnew]
  refine ⟨by rw [hadd], ?_, ?_⟩
  · have := client_add_found (g := (client_add l g c).2.2) hfind2
    rw [client_is_dup_number] at this
    rw [this]
  · rw [hbucket, List.countP_append, hcount0]
    simp [hcmpnew]

/-- Witness client at 10.0.0.0/8 (address 167772160). -/
def wEntry8 : RADCLIENT :=
  { emptyClient with
    ipaddr := { af := .inet, addr := 167772160, pfx := 8 },
    secret := some "a" }

/-- Witness client at 10.1.2.3/32 (address 167838211). -/
def wEntry32 : RADCLIENT :=
  { emptyClient with
    ipaddr := { af := .inet, addr := 167838211, pfx := 32 },
    secret := some "b", number := 1 }

/-- Witness registry holding the two entries above in their buckets. -/
def wReg1 : RADCLIENT_LIST :=
  { name := "w",
    trees := fun i =>
      if i = 32 then some [wEntry32] else if i = 8 then some [wEntry8] else none,
    min_pfx := 8 }

/-- Witness query address 10.1.2.3/32. -/
def wQuery : fr_ipaddr_t := { af := .inet, addr := 167838211, pfx := 32 }

theorem wReg1_bucketInv : BucketInv wReg1 := by
  intro i t ht c hc
  simp only [wReg1] at ht
  split_ifs at ht with h1 h2
  · subst h1
    obtain rfl : [wEntry32] = t := Option.some.inj ht
    obtain rfl : c = wEntry32 := by simpa using hc
    rfl
  · subst h2
    obtain rfl : [wEntry8] = t := Option.some.inj ht
    obtain rfl : c = wEntry8 := by simpa using hc
    rfl

theorem wReg1_watermarkInv : WatermarkInv wReg1 := by
  intro i t ht hne
  simp only [wReg1] at ht ⊢
  split_ifs at ht with h1 h2
  · omega
  · omega

/-- Witness for C1 at a concrete overlap: with 10.0.0.0/8 and 10.1.2.3/32 both
stored, looking up 10.1.2.3 returns a matching entry of maximal prefix length. -/
theorem C1_longest_prefix_match_witness :
    ∃ c, client_find wReg1 wQuery IPPROTO_UDP = some c ∧
      MatchesEntry wQuery IPPROTO_UDP c ∧
      (∃ t, wReg1.trees c.ipaddr.pfx = some t ∧ c ∈ t) ∧
      ∀ i t e, i ≤ effMax wQuery → wReg1.trees i = some t → e ∈ t →
        MatchesEntry wQuery IPPROTO_UDP e → e.ipaddr.pfx ≤ c.ipaddr.pfx :=
  C1_longest_prefix_match wReg1 wQuery IPPROTO_UDP wReg1_bucketInv wReg1_watermarkInv
    ⟨32, [wEntry32], wEntry32, by decide, by simp [wReg1], by simp,
      by unfold MatchesEntry; decide⟩

/-- Witness client conflicting with `wEntry32`: same key, different secret. -/
def wConflict : RADCLIENT := { wEntry32 with secret := some "zzz", number := 0 }

/-- Witness for C2: inserting a same-key different-secret record into the
registry holding `wEntry32` fails and changes nothing. -/
theorem C2_conflict_detection_witness :
    client_add wReg1 initNumState wConflict = (false, wReg1, initNumState) :=
  (C2_conflict_detection wReg1 initNumState wConflict wEntry32 (by decide) (by decide)).1

/-- Witness for C3: inserting 10.1.2.3/32 into an empty registry and then
re-inserting the identical record succeeds twice and leaves exactly one entry
for that key. -/
theorem C3_idempotent_reinsertion_witness :
    (client_add (client_list_init "w") initNumState wEntry32).1 = true ∧
    client_add (client_add (client_list_init "w") initNumState wEntry32).2.1
        (client_add (client_list_init "w") initNumState wEntry32).2.2 wEntry32 =
      (true, (client_add (client_list_init "w") initNumState wEntry32).2) ∧
    (((client_add (client_list_init "w") initNumState wEntry32).2.1.trees
        (wildcard_fixup wEntry32).ipaddr.pfx).getD []).countP
      (fun x => client_ipaddr_cmp (wildcard_fixup wEntry32) x == 0) = 1 :=
  C3_idempotent_reinsertion (client_list_init "w") initNumState wEntry32 (by decide)

/-- Masking a value to zero bits yields zero. -/
theorem maskBits_zero {w a : Nat} (hw : 0 < w) (ha : a < 2 ^ w) : maskBits w 0 a = 0 := by
  unfold maskBits
  rw [if_neg (by omega)]
  simp [Nat.div_eq_of_lt ha]

/-- Bit widths never exceed 128. -/
theorem AF.bits_le (a : AF) : a.bits ≤ 128 := by
  cases a <;> decide

/-- After inserting a single already-normalized record into a fresh registry,
its bucket holds exactly the numbered record, every other bucket is absent, and
the watermark is the record's prefix length clamped at 128. -/
theorem single_entry_trees (s : String) (g : NumState) (e : RADCLIENT)
    (hfix : wildcard_fixup e = e) :
    (client_add (client_list_init s) g e).2.1.trees e.ipaddr.pfx =
      some [{ e with number := g.tree_num_max }] ∧
    (∀ i, i ≠ e.ipaddr.pfx → (client_add (client_list_init s) g e).2.1.trees i = none) ∧
    (client_add (client_list_init s) g e).2.1.min_pfx =
      (if e.ipaddr.pfx < 128 then e.ipaddr.pfx else 128) := by
  have hfresh : rbtree_finddata client_ipaddr_cmp
      (((client_list_init s).trees (wildcard_fixup e).ipaddr.pfx).getD [])
      (wildcard_fixup e) = none := rfl
  rw [client_add_fresh hfresh, hfix]
  refine ⟨?_, ?_, ?_⟩
  · simp [client_list_init]
  · intro i hi
    simp [client_list_init, hi]
  · simp [client_list_init]

/-- C4: Transport wildcard equality.  For keys whose address portions compare
equal: the comparator yields equal whenever either side carries the wildcard
transport, and, when both transports are concrete, yields equal exactly on
identical transports.  Consequently, in a registry holding one client, a
wildcard-transport client at an address answers lookups for that address under
every transport, while a concrete-transport client never answers a lookup made
under a different concrete transport. -/
theorem C4_transport_wildcard_equality :
    (∀ a b : RADCLIENT, fr_ipaddr_cmp a.ipaddr b.ipaddr = 0 →
      (a.proto = IPPROTO_IP ∨ b.proto = IPPROTO_IP) → client_ipaddr_cmp a b = 0) ∧
    (∀ a b : RADCLIENT, fr_ipaddr_cmp a.ipaddr b.ipaddr = 0 →
      a.proto ≠ IPPROTO_IP → b.proto ≠ IPPROTO_IP →
      (client_ipaddr_cmp a b = 0 ↔ a.proto = b.proto)) ∧
    (∀ (e : RADCLIENT) (q : fr_ipaddr_t) (proto : Nat) (g : NumState) (s : String),
      wildcard_fixup e = e → e.ipaddr.pfx ≤ e.ipaddr.af.bits →
      q.af = e.ipaddr.af → q.pfx = q.af.bits →
      fr_ipaddr_cmp (fr_ipaddr_mask q e.ipaddr.pfx) e.ipaddr = 0 →
      e.proto = IPPROTO_IP →
      client_find (client_add (client_list_init s) g e).2.1 q proto =
        some { e with number := g.tree_num_max }) ∧
    (∀ (e : RADCLIENT) (q : fr_ipaddr_t) (proto : Nat) (g : NumState) (s : String),
      wildcard_fixup e = e → e.ipaddr.pfx ≤ e.ipaddr.af.bits →
      q.af = e.ipaddr.af → q.pfx = q.af.bits →
      e.proto ≠ IPPROTO_IP → proto ≠ IPPROTO_IP → proto ≠ e.proto →
      client_find (client_add (client_list_init s) g e).2.1 q proto = none) := by
  refine ⟨?_, ?_, ?_, ?_⟩
  · intro a b hip hp
    exact client_ipaddr_cmp_zero_of hip (hp.imp id Or.inl)
  · intro a b hip ha hb
    rw [client_ipaddr_cmp_eq_zero_iff]
    constructor
    · rintro ⟨-, h | h | h⟩
      · exact absurd h ha
      · exact absurd h hb
      · exact h
    · intro h
      exact ⟨hip, Or.inr (Or.inr h)⟩
  · intro e q proto g s hfix hple hqaf hqpfx hmask hwild
    obtain ⟨ht1, ht2, ht3⟩ := single_entry_trees s g e hfix
    have heff : effMax q = e.ipaddr.af.bits := by
      simp [effMax, hqpfx, hqaf]
    have hb128 : e.ipaddr.af.bits ≤ 128 := AF.bits_le _
    unfold client_find
    apply client_find_scan_eq_some_of (j := e.ipaddr.pfx)
    · rw [heff]; exact hple
    · rw [ht3]; split <;> omega
    · simp only [client_find_probe, ht1, rbtree_finddata]
      rw [List.find?_cons_of_pos]
      rw [beq_iff_eq]
      apply client_ipaddr_cmp_zero_of
      · exact hmask
      · exact Or.inr (Or.inl hwild)
    · intro k hk1 hk2
      have hkne : k ≠ e.ipaddr.pfx := by omega
      simp [client_find_probe, ht2 k hkne]
  · intro e q proto g s hfix hple hqaf hqpfx heIP hpIP hpne
    obtain ⟨ht1, ht2, ht3⟩ := single_entry_trees s g e hfix
    unfold client_find
    apply client_find_scan_eq_none_of
    intro k hk
    by_cases hkp : k = e.ipaddr.pfx
    · subst hkp
      simp only [client_find_probe, ht1, rbtree_finddata]
      rw [List.find?_cons_of_neg]
      · rfl
      · rw [beq_iff_eq, client_ipaddr_cmp_eq_zero_iff]
        rintro ⟨-, h | h | h⟩
        · exact hpIP h
        · exact heIP h
        · exact hpne h
    · simp [client_find_probe, ht2 k hkp]

/-- Witness wildcard-transport client at 203.0.113.5/32 (address 3405803781). -/
def wWild : RADCLIENT :=
  { emptyClient with
    ipaddr := { af := .inet, addr := 3405803781, pfx := 32 },
    proto := IPPROTO_IP, secret := some "w" }

/-- Witness TCP-transport client at the same address. -/
def wTcp : RADCLIENT := { wWild with proto := IPPROTO_TCP }

/-- Witness for C4: the wildcard-transport client at 203.0.113.5/32 answers a
TCP lookup, while the TCP-only client at the same address does not answer a UDP
lookup. -/
theorem C4_transport_wildcard_equality_witness :
    client_find (client_add (client_list_init "w") initNumState wWild).2.1
        { af := .inet, addr := 3405803781, pfx := 32 } IPPROTO_TCP =
      some { wWild with number := initNumState.tree_num_max } ∧
    client_find (client_add (client_list_init "w") initNumState wTcp).2.1
        { af := .inet, addr := 3405803781, pfx := 32 } IPPROTO_UDP = none :=
  ⟨C4_transport_wildcard_equality.2.2.1 wWild
      { af := .inet, addr := 3405803781, pfx := 32 } IPPROTO_TCP initNumState "w"
      (by decide) (by decide) rfl rfl (by decide) rfl,
   C4_transport_wildcard_equality.2.2.2 wTcp
      { af := .inet, addr := 3405803781, pfx := 32 } IPPROTO_UDP initNumState "w"
      (by decide) (by decide) rfl rfl (by decide) (by decide) (by decide)⟩
/-- A registry freshly holding exactly one normalized record answers any query
whose masked key the comparator equates with that record. -/
theorem single_entry_find (s : String) (g : NumState) (e : RADCLIENT)
    (hfix : wildcard_fixup e = e) (q : fr_ipaddr_t) (proto : Nat)
    (heffj : e.ipaddr.pfx ≤ effMax q)
    (hkey : client_ipaddr_cmp (mkQuery q proto e.ipaddr.pfx)
      { e with number := g.tree_num_max } = 0) :
    client_find (client_add (client_list_init s) g e).2.1 q proto =
      some { e with number := g.tree_num_max } := by
  obtain ⟨ht1, ht2, ht3⟩ := single_entry_trees s g e hfix
  unfold client_find
  apply client_find_scan_eq_some_of heffj
  · rw [ht3]
    have := AF.bits_le e.ipaddr.af
    split <;> omega
  · simp only [client_find_probe, ht1, rbtree_finddata]
    rw [List.find?_cons_of_pos _ (by rw [beq_iff_eq]; exact hkey)]
  · intro k hk1 hk2
    simp [client_find_probe, ht2 k (by omega)]

/-- C5: Wildcard normalization.  A client whose address is all-zero with a
full-width prefix is stored with prefix length 0: the fixup rewrites its prefix
to 0, inserting it is literally the same operation as inserting the /0 record,
and after inserting it into a fresh registry every same-family address (under a
transport its transport accepts) resolves to it. -/
theorem C5_wildcard_normalization (l : RADCLIENT_LIST) (g : NumState) (c : RADCLIENT)
    (hz : c.ipaddr.addr = 0) (hp : c.ipaddr.pfx = c.ipaddr.af.bits) :
    (wildcard_fixup c).ipaddr.pfx = 0 ∧
    client_add l g c = client_add l g { c with ipaddr := { c.ipaddr with pfx := 0 } } ∧
    (∀ (s : String) (q : fr_ipaddr_t) (proto : Nat),
      q.af = c.ipaddr.af → q.pfx = q.af.bits → q.addr < 2 ^ q.af.bits →
      (c.proto = IPPROTO_IP ∨ proto = c.proto) →
      client_find (client_add (client_list_init s) g c).2.1 q proto =
        some { c with ipaddr := { c.ipaddr with pfx := 0 }, number := g.tree_num_max }) := by
  have hfix : wildcard_fixup c = { c with ipaddr := { c.ipaddr with pfx := 0 } } := by
    simp [wildcard_fixup, fr_ipaddr_is_inaddr_any, hz, hp]
  have hfix2 : wildcard_fixup { c with ipaddr := { c.ipaddr with pfx := 0 } } =
      { c with ipaddr := { c.ipaddr with pfx := 0 } } := by
    simp [wildcard_fixup, fr_ipaddr_is_inaddr_any, hz, (AF.bits_pos c.ipaddr.af).ne]
  refine ⟨by rw [hfix], ?_, ?_⟩
  · simp only [client_add, hfix, hfix2]
  · intro s q proto hqaf hqpfx haddr hpcompat
    have hadd : client_add (client_list_init s) g c =
        client_add (client_list_init s) g
          { c with ipaddr := { c.ipaddr with pfx := 0 } } := by
      simp only [client_add, hfix, hfix2]
    have hbpos : 0 < q.af.bits := AF.bits_pos _
    rw [hadd]
    apply single_entry_find s g { c with ipaddr := { c.ipaddr with pfx := 0 } } hfix2
    · exact Nat.zero_le _
    · apply client_ipaddr_cmp_zero_of
      · show fr_ipaddr_cmp (fr_ipaddr_mask q 0)
          ({ c with ipaddr := { c.ipaddr with pfx := 0 } } : RADCLIENT).ipaddr = 0
        rw [fr_ipaddr_cmp_eq_zero_iff]
        refine ⟨hqaf, ?_, rfl⟩
        show maskBits q.af.bits 0 (maskBits q.af.bits 0 q.addr) =
          maskBits c.ipaddr.af.bits 0 c.ipaddr.addr
        rw [hz, maskBits_zero hbpos haddr,
            maskBits_zero hbpos (by positivity),
            maskBits_zero (AF.bits_pos c.ipaddr.af) (by positivity)]
      · rcases hpcompat with h | h
        · exact Or.inr (Or.inl h)
        · exact Or.inr (Or.inr h)

/-- Witness all-zero IPv4 client declared as 0.0.0.0/32. -/
def wZero : RADCLIENT :=
  { emptyClient with
    ipaddr := { af := .inet, addr := 0, pfx := 32 },
    secret := some "z" }

/-- Witness for C5: 0.0.0.0/32 is stored as prefix 0, inserting it equals
inserting 0.0.0.0/0, and in a fresh registry it answers 10.1.2.3 under UDP. -/
theorem C5_wildcard_normalization_witness :
    (wildcard_fixup wZero).ipaddr.pfx = 0 ∧
    client_add wReg1 initNumState wZero =
      client_add wReg1 initNumState { wZero with ipaddr := { wZero.ipaddr with pfx := 0 } } ∧
    (∀ (s : String) (q : fr_ipaddr_t) (proto : Nat),
      q.af = wZero.ipaddr.af → q.pfx = q.af.bits → q.addr < 2 ^ q.af.bits →
      (wZero.proto = IPPROTO_IP ∨ proto = wZero.proto) →
      client_find (client_add (client_list_init s) initNumState wZero).2.1 q proto =
        some { wZero with
               ipaddr := { wZero.ipaddr with pfx := 0 },
               number := initNumState.tree_num_max }) :=
  C5_wildcard_normalization wReg1 initNumState wZero rfl rfl

/-- After a fresh insert, looking up the just-assigned number through any
existing registry returns the numbered record. -/
theorem findbynumber_after_fresh_add {l l₂ : RADCLIENT_LIST} {g : NumState}
    {c : RADCLIENT} (hinv : NumInv g)
    (hfresh : rbtree_finddata client_ipaddr_cmp
      ((l.trees (wildcard_fixup c).ipaddr.pfx).getD []) (wildcard_fixup c) = none) :
    client_findbynumber (some l₂) none (client_add l g c).2.2 g.tree_num_max =
      some { wildcard_fixup c with number := g.tree_num_max } := by
  rw [client_add_fresh hfresh]
  simp only [client_findbynumber]
  rw [if_neg (by omega)]
  unfold rbtree_finddata
  rw [List.find?_append]
  have h0 : (g.tree_num.getD []).find?
      (fun x => client_num_cmp { emptyClient with number := g.tree_num_max } x == 0) =
      none := by
    rw [List.find?_eq_none]
    intro x hx
    have hlt := hinv x hx
    simp only [client_num_cmp, beq_iff_eq, sub_eq_zero, Nat.cast_inj]
    omega
  rw [h0]
  simp [client_num_cmp]

/-- Number lookups at already-assigned numbers are unchanged by a later insert. -/
theorem findbynumber_add_stable {l : RADCLIENT_LIST} {g : NumState} {c : RADCLIENT}
    {n : Nat} (hn : n < g.tree_num_max) :
    client_findbynumber (some (client_add l g c).2.1) none (client_add l g c).2.2 n =
      client_findbynumber (some l) none g n := by
  rcases hfind : rbtree_finddata client_ipaddr_cmp
      ((l.trees (wildcard_fixup c).ipaddr.pfx).getD []) (wildcard_fixup c) with _ | old
  case some => rw [client_add_found hfind]
  case none =>
    rw [client_add_fresh hfind]
    simp only [client_findbynumber]
    rw [if_neg (by omega), if_neg (by omega)]
    have hlast : List.find?
        (fun x => client_num_cmp { emptyClient with number := n } x == 0)
        [{ wildcard_fixup c with number := g.tree_num_max }] = none := by
      rw [List.find?_cons_of_neg]
      · rfl
      · rw [beq_iff_eq]
        simp only [client_num_cmp, sub_eq_zero, Nat.cast_inj]
        omega
    rcases ht : g.tree_num with _ | t
    · simp only [ht, Option.getD_none, rbtree_finddata, List.nil_append, hlast]
    · simp only [ht, Option.getD_some, rbtree_finddata]
      rw [List.find?_append, hlast, Option.or_none]

/-- Number lookups at other numbers are unchanged by a delete. -/
theorem findbynumber_delete_stable {l root : RADCLIENT_LIST} {g : NumState}
    {c : RADCLIENT} {n : Nat} (hn : n ≠ c.number) :
    client_findbynumber (some (client_delete (some l) root g c).1) none
        (client_delete (some l) root g c).2 n =
      client_findbynumber (some l) none g n := by
  simp only [client_delete, client_findbynumber]
  rcases ht : g.tree_num with _ | t
  · simp [rbtree_deletebydata, ht]
  · simp only [rbtree_deletebydata, ht, Option.map_some']
    by_cases hle : g.tree_num_max ≤ n
    · rw [if_pos hle, if_pos hle]
    · rw [if_neg hle, if_neg hle]
      unfold rbtree_finddata
      apply find?_eraseP_of_disjoint
      intro x hqx
      rw [beq_iff_eq] at hqx
      simp only [client_num_cmp, sub_eq_zero, Nat.cast_inj] at hqx
      rw [Bool.eq_false_iff]
      rw [ne_eq, beq_iff_eq]
      simp only [client_num_cmp, sub_eq_zero, Nat.cast_inj]
      omega

/-- Inserting preserves the numbering invariant. -/
theorem numInv_add (l : RADCLIENT_LIST) {g : NumState} (c : RADCLIENT)
    (hinv : NumInv g) : NumInv (client_add l g c).2.2 := by
  rcases hfind : rbtree_finddata client_ipaddr_cmp
      ((l.trees (wildcard_fixup c).ipaddr.pfx).getD []) (wildcard_fixup c) with _ | old
  case some =>
    rw [client_add_found hfind]
    exact hinv
  case none =>
    rw [client_add_fresh hfind]
    intro x hx
    simp only [Option.getD_some, List.mem_append, List.mem_singleton] at hx
    rcases hx with hx | rfl
    · exact Nat.lt_succ_of_lt (hinv x hx)
    · exact Nat.lt_succ_self _

/-- Deleting preserves the numbering invariant and the counter. -/
theorem numInv_delete (l root : RADCLIENT_LIST) {g : NumState} (c : RADCLIENT)
    (hinv : NumInv g) :
    (client_delete (some l) root g c).2.tree_num_max = g.tree_num_max ∧
    NumInv (client_delete (some l) root g c).2 := by
  refine ⟨rfl, ?_⟩
  intro x hx
  simp only [client_delete, rbtree_deletebydata] at hx ⊢
  rcases ht : g.tree_num with _ | t
  · rw [ht] at hx
    simp at hx
  · rw [ht] at hx
    simp only [Option.map_some', Option.getD_some] at hx
    exact hinv x (by rw [ht]; exact List.eraseP_subset _ hx)

/-- Any single operation can only increase the next-number counter. -/
theorem applyOp_max_mono (s : RADCLIENT_LIST × NumState) (op : RegOp) :
    s.2.tree_num_max ≤ (applyOp s op).2.tree_num_max := by
  rcases op with c | c
  · simp only [applyOp]
    rcases hfind : rbtree_finddata client_ipaddr_cmp
        ((s.1.trees (wildcard_fixup c).ipaddr.pfx).getD []) (wildcard_fixup c) with _ | old
    · rw [client_add_fresh hfind]
      exact Nat.le_succ _
    · rw [client_add_found hfind]
  · simp [applyOp, client_delete]

/-- Across any run of operations the next-number counter never decreases, so a
number previously assigned (always the counter's value at assignment time) is
never handed out again. -/
theorem runOps_max_mono (s : RADCLIENT_LIST × NumState) (ops : List RegOp) :
    s.2.tree_num_max ≤ (runOps s ops).2.tree_num_max := by
  induction ops generalizing s with
  | nil => exact le_rfl
  | cons op ops ih =>
      calc s.2.tree_num_max ≤ (applyOp s op).2.tree_num_max := applyOp_max_mono s op
        _ ≤ (runOps (applyOp s op) ops).2.tree_num_max := ih _

/-- C6: Numbering stability.  The counter starts at 0; a fresh insert assigns
the current counter value as the new record's number, places the record in the
number tree, bumps the counter by one, and lets lookup-by-number at that number
return exactly that record; an insert leaves lookups at previously assigned
numbers unchanged; a delete leaves every other number's lookup unchanged and
never lowers the counter; and across any run of operations the counter never
decreases, so a deleted record's number (always below the counter) can never be
assigned to a later insertion. -/
theorem C6_numbering_stability (l : RADCLIENT_LIST) (g : NumState) (hinv : NumInv g) :
    initNumState.tree_num_max = 0 ∧
    (∀ c, rbtree_finddata client_ipaddr_cmp
        ((l.trees (wildcard_fixup c).ipaddr.pfx).getD []) (wildcard_fixup c) = none →
      ({ wildcard_fixup c with number := g.tree_num_max } ∈
        (client_add l g c).2.2.tree_num.getD []) ∧
      (client_add l g c).2.2.tree_num_max = g.tree_num_max + 1 ∧
      client_findbynumber (some (client_add l g c).2.1) none (client_add l g c).2.2
          g.tree_num_max = some { wildcard_fixup c with number := g.tree_num_max } ∧
      NumInv (client_add l g c).2.2) ∧
    (∀ c n, n < g.tree_num_max →
      client_findbynumber (some (client_add l g c).2.1) none (client_add l g c).2.2 n =
        client_findbynumber (some l) none g n) ∧
    (∀ c n, n ≠ c.number →
      client_findbynumber (some (client_delete (some l) l g c).1) none
          (client_delete (some l) l g c).2 n =
        client_findbynumber (some l) none g n) ∧
    (∀ c, (client_delete (some l) l g c).2.tree_num_max = g.tree_num_max ∧
      NumInv (client_delete (some l) l g c).2) ∧
    (∀ ops, g.tree_num_max ≤ (runOps (l, g) ops).2.tree_num_max) := by
  refine ⟨rfl, ?_, ?_, ?_, ?_, ?_⟩
  · intro c hfresh
    refine ⟨?_, ?_, findbynumber_after_fresh_add hinv hfresh, numInv_add l c hinv⟩
    · rw [client_add_fresh hfresh]
      simp
    · rw [client_add_fresh hfresh]
  · intro c n hn
    exact findbynumber_add_stable hn
  · intro c n hn
    exact findbynumber_delete_stable hn
  · intro c
    exact numInv_delete l l c hinv
  · intro ops
    exact runOps_max_mono (l, g) ops

/-- Witness for C6: from the empty registry and pristine counter, inserting
10.0.0.0/8 numbers it 0, bumps the counter to 1, makes it reachable by number 0,
and keeps the numbering invariant. -/
theorem C6_numbering_stability_witness :
    ({ wildcard_fixup wEntry8 with number := initNumState.tree_num_max } ∈
      (client_add (client_list_init "w") initNumState wEntry8).2.2.tree_num.getD []) ∧
    (client_add (client_list_init "w") initNumState wEntry8).2.2.tree_num_max =
      initNumState.tree_num_max + 1 ∧
    client_findbynumber
        (some (client_add (client_list_init "w") initNumState wEntry8).2.1) none
        (client_add (client_list_init "w") initNumState wEntry8).2.2
        initNumState.tree_num_max =
      some { wildcard_fixup wEntry8 with number := initNumState.tree_num_max } ∧
    NumInv (client_add (client_list_init "w") initNumState wEntry8).2.2 :=
  (C6_numbering_stability (client_list_init "w") initNumState
    (by intro x hx; simp [initNumState] at hx)).2.1 wEntry8 (by decide)

/-- C10: Process-global numbering.  Lookup-by-number ignores which (existing)
registry handle it is given: any two registries yield the same answer for every
number; consequently, a record freshly inserted into one registry is reachable
by its assigned number through any other registry handle, including the default
scope. -/
theorem C10_global_numbering :
    (∀ (l₁ l₂ : RADCLIENT_LIST) (root : Option RADCLIENT_LIST) (g : NumState) (n : Nat),
      client_findbynumber (some l₁) root g n = client_findbynumber (some l₂) root g n) ∧
    (∀ (l l₂ : RADCLIENT_LIST) (g : NumState) (c : RADCLIENT), NumInv g →
      rbtree_finddata client_ipaddr_cmp
        ((l.trees (wildcard_fixup c).ipaddr.pfx).getD []) (wildcard_fixup c) = none →
      client_findbynumber (some l₂) none (client_add l g c).2.2 g.tree_num_max =
        some { wildcard_fixup c with number := g.tree_num_max }) := by
  refine ⟨?_, ?_⟩
  · intro l₁ l₂ root g n
    rfl
  · intro l l₂ g c hinv hfresh
    exact findbynumber_after_fresh_add hinv hfresh

/-- Witness for C10: number 0 resolves identically through two unrelated
registries, and a client inserted into one registry is found by number through a
different registry handle. -/
theorem C10_global_numbering_witness :
    client_findbynumber (some wReg1) none initNumState 0 =
      client_findbynumber (some (client_list_init "other")) none initNumState 0 ∧
    client_findbynumber (some (client_list_init "other")) none
        (client_add wReg1 initNumState wZero).2.2 initNumState.tree_num_max =
      some { wildcard_fixup wZero with number := initNumState.tree_num_max } :=
  ⟨C10_global_numbering.1 wReg1 (client_list_init "other") none initNumState 0,
   C10_global_numbering.2 wReg1 (client_list_init "other") initNumState wZero
     (by intro x hx; simp [initNumState] at hx) (by decide)⟩

/-- Bucket contents after a fresh insert, bucket by bucket. -/
theorem client_add_fresh_trees {l : RADCLIENT_LIST} {g : NumState} {c : RADCLIENT}
    (hfresh : rbtree_finddata client_ipaddr_cmp
      ((l.trees (wildcard_fixup c).ipaddr.pfx).getD []) (wildcard_fixup c) = none)
    (i : Nat) :
    (client_add l g c).2.1.trees i =
      if i = (wildcard_fixup c).ipaddr.pfx then
        some (((l.trees (wildcard_fixup c).ipaddr.pfx).getD []) ++
          [{ wildcard_fixup c with number := g.tree_num_max }])
      else l.trees i := by
  rw [client_add_fresh hfresh]

/-- Watermark after a fresh insert. -/
theorem client_add_fresh_min {l : RADCLIENT_LIST} {g : NumState} {c : RADCLIENT}
    (hfresh : rbtree_finddata client_ipaddr_cmp
      ((l.trees (wildcard_fixup c).ipaddr.pfx).getD []) (wildcard_fixup c) = none) :
    (client_add l g c).2.1.min_pfx =
      if (wildcard_fixup c).ipaddr.pfx < l.min_pfx then (wildcard_fixup c).ipaddr.pfx
      else l.min_pfx := by
  rw [client_add_fresh hfresh]

/-- Bucket contents after a delete, bucket by bucket. -/
theorem client_delete_trees (l root : RADCLIENT_LIST) (g : NumState) (c : RADCLIENT)
    (i : Nat) :
    (client_delete (some l) root g c).1.trees i =
      if i = c.ipaddr.pfx then
        rbtree_deletebydata client_ipaddr_cmp (l.trees c.ipaddr.pfx) c
      else l.trees i := rfl

/-- Delete never touches the watermark. -/
theorem client_delete_min (l root : RADCLIENT_LIST) (g : NumState) (c : RADCLIENT) :
    (client_delete (some l) root g c).1.min_pfx = l.min_pfx := rfl

/-- Insertion preserves the bucket invariant. -/
theorem bucketInv_add (l : RADCLIENT_LIST) (g : NumState) (c : RADCLIENT)
    (hb : BucketInv l) : BucketInv (client_add l g c).2.1 := by
  rcases hfind : rbtree_finddata client_ipaddr_cmp
      ((l.trees (wildcard_fixup c).ipaddr.pfx).getD []) (wildcard_fixup c) with _ | old
  case some =>
    rw [client_add_found hfind]
    exact hb
  case none =>
    intro i t ht x hx
    rw [client_add_fresh_trees hfind i] at ht
    by_cases hip : i = (wildcard_fixup c).ipaddr.pfx
    · rw [if_pos hip] at ht
      obtain rfl : _ = t := Option.some.inj ht
      rcases List.mem_append.mp hx with hx1 | hx1
      · rcases htp : l.trees (wildcard_fixup c).ipaddr.pfx with _ | t0
        · rw [htp] at hx1
          simp at hx1
        · rw [htp] at hx1
          simp only [Option.getD_some] at hx1
          rw [hip]
          exact hb _ t0 htp x hx1
      · obtain rfl : x = _ := List.mem_singleton.mp hx1
        rw [hip]
    · rw [if_neg hip] at ht
      exact hb i t ht x hx

/-- Insertion preserves the watermark invariant. -/
theorem watermarkInv_add (l : RADCLIENT_LIST) (g : NumState) (c : RADCLIENT)
    (hw : WatermarkInv l) : WatermarkInv (client_add l g c).2.1 := by
  rcases hfind : rbtree_finddata client_ipaddr_cmp
      ((l.trees (wildcard_fixup c).ipaddr.pfx).getD []) (wildcard_fixup c) with _ | old
  case some =>
    rw [client_add_found hfind]
    exact hw
  case none =>
    intro i t ht hne
    rw [client_add_fresh_trees hfind i] at ht
    rw [client_add_fresh_min hfind]
    by_cases hip : i = (wildcard_fixup c).ipaddr.pfx
    · subst hip
      split <;> omega
    · rw [if_neg hip] at ht
      have := hw i t ht hne
      split <;> omega

/-- Deletion preserves the bucket invariant. -/
theorem bucketInv_delete (l root : RADCLIENT_LIST) (g : NumState) (c : RADCLIENT)
    (hb : BucketInv l) : BucketInv (client_delete (some l) root g c).1 := by
  intro i t ht x hx
  rw [client_delete_trees] at ht
  by_cases hip : i = c.ipaddr.pfx
  · rw [if_pos hip] at ht
    rcases htp : l.trees c.ipaddr.pfx with _ | t0
    · rw [htp] at ht
      simp [rbtree_deletebydata] at ht
    · rw [htp] at ht
      simp only [rbtree_deletebydata, Option.map_some'] at ht
      obtain rfl : _ = t := Option.some.inj ht
      rw [hip]
      exact hb _ t0 htp x (List.eraseP_subset _ hx)
  · rw [if_neg hip] at ht
    exact hb i t ht x hx

/-- Deletion preserves the watermark invariant. -/
theorem watermarkInv_delete (l root : RADCLIENT_LIST) (g : NumState) (c : RADCLIENT)
    (hw : WatermarkInv l) : WatermarkInv (client_delete (some l) root g c).1 := by
  intro i t ht hne
  rw [client_delete_trees] at ht
  rw [client_delete_min]
  by_cases hip : i = c.ipaddr.pfx
  · rw [if_pos hip] at ht
    rcases htp : l.trees c.ipaddr.pfx with _ | t0
    · rw [htp] at ht
      simp [rbtree_deletebydata] at ht
    · rw [htp] at ht
      simp only [rbtree_deletebydata, Option.map_some'] at ht
      obtain rfl : _ = t := Option.some.inj ht
      have ht0 : t0 ≠ [] := by
        intro h
        subst h
        simp at hne
      rw [hip]
      exact hw _ t0 htp ht0
  · rw [if_neg hip] at ht
    exact hw i t ht hne

/-- C7: Watermark invariant.  The watermark starts at 128; a successful insert
sets it to the minimum of its previous value and the stored record's prefix
length, and an insert never raises it; a delete never changes it; and both
operations preserve the bucket and watermark invariants, so lookups remain
correct after any delete (at worst scanning prefix lengths whose buckets are
empty). -/
theorem C7_watermark_invariant (s : String) (l : RADCLIENT_LIST) (g : NumState)
    (c : RADCLIENT) (hb : BucketInv l) (hw : WatermarkInv l) :
    (client_list_init s).min_pfx = 128 ∧
    ((client_add l g c).1 = true →
      (client_add l g c).2.1.min_pfx = min l.min_pfx (wildcard_fixup c).ipaddr.pfx) ∧
    (client_add l g c).2.1.min_pfx ≤ l.min_pfx ∧
    (∀ root d, (client_delete (some l) root g d).1.min_pfx = l.min_pfx) ∧
    (∀ root d, BucketInv (client_delete (some l) root g d).1 ∧
      WatermarkInv (client_delete (some l) root g d).1) ∧
    BucketInv (client_add l g c).2.1 ∧ WatermarkInv (client_add l g c).2.1 := by
  refine ⟨rfl, ?_, ?_, fun root d => client_delete_min l root g d,
    fun root d => ⟨bucketInv_delete l root g d hb, watermarkInv_delete l root g d hw⟩,
    bucketInv_add l g c hb, watermarkInv_add l g c hw⟩
  · intro hsucc
    rcases hfind : rbtree_finddata client_ipaddr_cmp
        ((l.trees (wildcard_fixup c).ipaddr.pfx).getD []) (wildcard_fixup c) with _ | old
    · rw [client_add_fresh_min hfind]
      split <;> omega
    · have hmem : old ∈ (l.trees (wildcard_fixup c).ipaddr.pfx).getD [] :=
        List.mem_of_find?_eq_some hfind
      rcases htp : l.trees (wildcard_fixup c).ipaddr.pfx with _ | t0
      · rw [htp] at hmem
        simp at hmem
      · rw [htp] at hmem
        simp only [Option.getD_some] at hmem
        have hle := hw _ t0 htp (List.ne_nil_of_mem hmem)
        simp only [client_add_found hfind]
        omega
  · rcases hfind : rbtree_finddata client_ipaddr_cmp
        ((l.trees (wildcard_fixup c).ipaddr.pfx).getD []) (wildcard_fixup c) with _ | old
    · rw [client_add_fresh_min hfind]
      split <;> omega
    · simp only [client_add_found hfind]
      exact le_rfl

/-- Witness client at 10.1.0.0/16 (address 167837696). -/
def wEntry16 : RADCLIENT :=
  { emptyClient with
    ipaddr := { af := .inet, addr := 167837696, pfx := 16 },
    secret := some "c" }

/-- Witness for C7: inserting 10.1.0.0/16 into the registry with watermark 8
keeps the watermark at min 8 16 = 8, never raises it, and a delete leaves it
alone. -/
theorem C7_watermark_invariant_witness :
    (client_list_init "w").min_pfx = 128 ∧
    ((client_add wReg1 initNumState wEntry16).1 = true →
      (client_add wReg1 initNumState wEntry16).2.1.min_pfx =
        min wReg1.min_pfx (wildcard_fixup wEntry16).ipaddr.pfx) ∧
    (client_add wReg1 initNumState wEntry16).2.1.min_pfx ≤ wReg1.min_pfx ∧
    (∀ root d, (client_delete (some wReg1) root initNumState d).1.min_pfx =
      wReg1.min_pfx) :=
  ⟨(C7_watermark_invariant "w" wReg1 initNumState wEntry16
      wReg1_bucketInv wReg1_watermarkInv).1,
   (C7_watermark_invariant "w" wReg1 initNumState wEntry16
      wReg1_bucketInv wReg1_watermarkInv).2.1,
   (C7_watermark_invariant "w" wReg1 initNumState wEntry16
      wReg1_bucketInv wReg1_watermarkInv).2.2.1,
   (C7_watermark_invariant "w" wReg1 initNumState wEntry16
      wReg1_bucketInv wReg1_watermarkInv).2.2.2.1⟩

/-- Removing nothing when no member compares equal. -/
theorem deletebydata_noop {cmp : RADCLIENT → RADCLIENT → Int}
    {t : Option (List RADCLIENT)} {c : RADCLIENT}
    (h : ∀ x ∈ t.getD [], cmp c x ≠ 0) :
    rbtree_deletebydata cmp t c = t := by
  rcases t with _ | t0
  · rfl
  · simp only [rbtree_deletebydata, Option.map_some']
    congr 1
    apply List.eraseP_of_forall_not
    intro a ha h'
    rw [beq_iff_eq] at h'
    exact h a (by simpa using ha) h'

/-- Componentwise equality of registries. -/
theorem radclient_list_ext {a b : RADCLIENT_LIST} (hn : a.name = b.name)
    (ht : ∀ i, a.trees i = b.trees i) (hm : a.min_pfx = b.min_pfx) : a = b := by
  rcases a with ⟨an, atr, am⟩
  rcases b with ⟨bn, btr, bm⟩
  simp only at hn ht hm
  subst hn
  subst hm
  congr 1
  funext i
  exact ht i

/-- Componentwise equality of numbering states. -/
theorem numstate_ext {a b : NumState} (h1 : a.tree_num = b.tree_num)
    (h2 : a.tree_num_max = b.tree_num_max) : a = b := by
  rcases a with ⟨a1, a2⟩
  rcases b with ⟨b1, b2⟩
  simp only at h1 h2
  rw [h1, h2]

/-- C8: Delete is a no-op success on absence.  Passing no registry falls back to
the root scope; deleting a record with no comparator-equal entry in its bucket
(including when that bucket was never created) and no number-equal entry in the
number tree returns the registry and numbering state exactly unchanged; deleting
a present record removes it from its prefix bucket and from the number index,
leaving no entry equal to its key in either. -/
theorem C8_delete_noop_on_absence (l : RADCLIENT_LIST) (g : NumState) :
    (∀ c, client_delete none l g c = client_delete (some l) l g c) ∧
    (∀ c, (∀ x ∈ (l.trees c.ipaddr.pfx).getD [], client_ipaddr_cmp c x ≠ 0) →
      (∀ x ∈ g.tree_num.getD [], client_num_cmp c x ≠ 0) →
      client_delete (some l) l g c = (l, g)) ∧
    (∀ c t, l.trees c.ipaddr.pfx = some t →
      t.countP (fun x => client_ipaddr_cmp c x == 0) ≤ 1 →
      ∀ x ∈ ((client_delete (some l) l g c).1.trees c.ipaddr.pfx).getD [],
        client_ipaddr_cmp c x ≠ 0) ∧
    (∀ c t, g.tree_num = some t →
      t.countP (fun x => client_num_cmp c x == 0) ≤ 1 →
      ∀ x ∈ (client_delete (some l) l g c).2.tree_num.getD [],
        client_num_cmp c x ≠ 0) := by
  refine ⟨fun c => rfl, ?_, ?_, ?_⟩
  · intro c habs habsn
    have h1 : (client_delete (some l) l g c).1 = l := by
      refine radclient_list_ext ?_ ?_ ?_
      · rfl
      · intro i
        rw [client_delete_trees]
        by_cases hip : i = c.ipaddr.pfx
        · rw [if_pos hip, hip]
          exact deletebydata_noop habs
        · rw [if_neg hip]
      · rfl
    have h2 : (client_delete (some l) l g c).2 = g := by
      refine numstate_ext ?_ ?_
      · exact deletebydata_noop habsn
      · rfl
    calc client_delete (some l) l g c
        = ((client_delete (some l) l g c).1, (client_delete (some l) l g c).2) := rfl
      _ = (l, g) := by rw [h1, h2]
  · intro c t htp hcount x hx hcmp
    rw [client_delete_trees, if_pos rfl, htp] at hx
    simp only [rbtree_deletebydata, Option.map_some', Option.getD_some] at hx
    have h0 := countP_eraseP_eq_zero hcount
    rw [List.countP_eq_zero] at h0
    exact h0 x hx (by rw [beq_iff_eq]; exact hcmp)
  · intro c t htn hcount x hx hcmp
    simp only [client_delete] at hx
    rw [htn] at hx
    simp only [rbtree_deletebydata, Option.map_some', Option.getD_some] at hx
    have h0 := countP_eraseP_eq_zero hcount
    rw [List.countP_eq_zero] at h0
    exact h0 x hx (by rw [beq_iff_eq]; exact hcmp)

/-- Witness client at 10.1.2.0/24 (address 167838208), whose bucket does not
exist in the witness registry. -/
def wEntry24 : RADCLIENT :=
  { emptyClient with
    ipaddr := { af := .inet, addr := 167838208, pfx := 24 },
    secret := some "d" }

/-- Witness for C8: deleting a /24 record whose bucket was never created from
the witness registry changes nothing, and deleting the present /32 record
leaves no equal entry in its bucket. -/
theorem C8_delete_noop_on_absence_witness :
    client_delete (some wReg1) wReg1 initNumState wEntry24 = (wReg1, initNumState) ∧
    (∀ x ∈ ((client_delete (some wReg1) wReg1 initNumState wEntry32).1.trees
        wEntry32.ipaddr.pfx).getD [], client_ipaddr_cmp wEntry32 x ≠ 0) :=
  ⟨(C8_delete_noop_on_absence wReg1 initNumState).2.1 wEntry24
      (by intro x hx; simp [wReg1, wEntry24] at hx)
      (by intro x hx; simp [initNumState] at hx),
   (C8_delete_noop_on_absence wReg1 initNumState).2.2.1 wEntry32 [wEntry32]
      (by decide) (by decide)⟩

/-- C9: Provisioning boundary.  The sanity checks of client_afrom_request accept
a synthesized client exactly when its address family matches the accepting
network's, its prefix is at least as specific as the network's, and its address
masked to the network's prefix equals the network's address; in every other case
the client is rejected and nothing is returned. -/
theorem C9_provisioning_boundary (network : fr_ipaddr_t) (c : RADCLIENT) :
    (client_afrom_request_checks network c = some c ↔
      (network.af = c.ipaddr.af ∧ network.pfx ≤ c.ipaddr.pfx ∧
        fr_ipaddr_cmp (fr_ipaddr_mask c.ipaddr network.pfx) network = 0)) ∧
    (∀ x, client_afrom_request_checks network c = some x → x = c) ∧
    (¬(network.af = c.ipaddr.af ∧ network.pfx ≤ c.ipaddr.pfx ∧
        fr_ipaddr_cmp (fr_ipaddr_mask c.ipaddr network.pfx) network = 0) →
      client_afrom_request_checks network c = none) := by
  unfold client_afrom_request_checks
  refine ⟨?_, ?_, ?_⟩
  · constructor
    · intro h
      split_ifs at h with h1 h2 h3
      exact ⟨not_ne_iff.mp h1, Nat.not_lt.mp h2, not_ne_iff.mp h3⟩
    · rintro ⟨ha, hb, hc⟩
      rw [if_neg (by simp [ha]), if_neg (by omega), if_neg (by simp [hc])]
  · intro x h
    split_ifs at h with h1 h2 h3
    exact (Option.some.inj h).symm
  · intro h
    split_ifs with h1 h2 h3
    · rfl
    · rfl
    · rfl
    · exact absurd ⟨not_ne_iff.mp h1, Nat.not_lt.mp h2, not_ne_iff.mp h3⟩ h

/-- Witness network 10.0.0.0/8 for the provisioning boundary. -/
def wNetwork : fr_ipaddr_t := { af := .inet, addr := 167772160, pfx := 8 }

/-- Witness for C9: against network 10.0.0.0/8, the synthesized client at
10.1.2.3/32 passes all three checks, and its characterization holds. -/
theorem C9_provisioning_boundary_witness :
    (client_afrom_request_checks wNetwork wEntry32 = some wEntry32 ↔
      (wNetwork.af = wEntry32.ipaddr.af ∧ wNetwork.pfx ≤ wEntry32.ipaddr.pfx ∧
        fr_ipaddr_cmp (fr_ipaddr_mask wEntry32.ipaddr wNetwork.pfx) wNetwork = 0)) ∧
    (∀ x, client_afrom_request_checks wNetwork wEntry32 = some x → x = wEntry32) ∧
    (¬(wNetwork.af = wEntry32.ipaddr.af ∧ wNetwork.pfx ≤ wEntry32.ipaddr.pfx ∧
        fr_ipaddr_cmp (fr_ipaddr_mask wEntry32.ipaddr wNetwork.pfx) wNetwork = 0) →
      client_afrom_request_checks wNetwork wEntry32 = none) :=
  C9_provisioning_boundary wNetwork wEntry32
